import Mathlib

/-!
Verification of the scene compositor and export engine of the
Napping Historian video assembler.

The definitions below are a shallow embedding of the rendering and audio
code, translated directly from the source:

* `src/components/Player.tsx` — transition state machine (`renderSceneFrame`),
  velocity-sync engine, interactive `draw` loop, `exportLoop`, ember
  particle system (`updateParticles`).
* `src/services/geminiService.ts` — silence trimmer
  (`trimSilenceFromAudio`) and WAV encoder (`createWavBlob`).

JavaScript numbers are modelled as rationals; sample indices as integers
(the scan subtracts padding from indices, which can go negative before
being clamped); byte-level writes as explicit base-256 digit lists.
-/

namespace NappingHistorian

/-! ## Scene data model (src/types.ts) -/

/-- The `transitionType` vocabulary of a `Scene` (src/types.ts). -/
inductive TransitionType
  | zoomThrough
  | polygonWipe
  | parallax25d
  | standard
deriving DecidableEq

/-- The timing and transition fields of a `Scene` that the compositor reads. -/
structure SceneT where
  startTime : ℚ
  endTime : ℚ
  transitionType : TransitionType
deriving DecidableEq

/-- The transition window length `TRANSITION_DURATION` (Player.tsx line 30). -/
def TRANSITION_DURATION : ℚ := 1

/-! ## Transition state machine (Player.tsx, `renderSceneFrame` lines 160-199)

`renderSceneFrame` initialises `opacity = 1.0` and then overwrites it in the
transition branch depending on the role of the scene (outgoing vs incoming) and
its `transitionType`.  The opacity computation is a pure function of those
inputs. -/

/-- Opacity assigned by the transition branch of `renderSceneFrame`
(Player.tsx lines 161-199).  `p` is the transition progress. -/
def sceneOpacity (tt : TransitionType) (isOutgoing : Bool) (p : ℚ) : ℚ :=
  if isOutgoing then
    if tt = .zoomThrough then 1 - p
    else if tt = .polygonWipe then 1
    else 1 - p
  else
    if tt = .zoomThrough then p
    else if tt = .polygonWipe then 1
    else p

/-- Whether `renderSceneFrame` installs the hexagonal clip path: only for an
incoming scene whose transition is `polygon-wipe` (Player.tsx lines 179-194). -/
def hexClipApplied (tt : TransitionType) (isOutgoing : Bool) : Bool :=
  !isOutgoing && tt = .polygonWipe

/-- Radius of the expanding hexagonal wipe:
`const size = Math.max(width, height) * p * 1.5` (Player.tsx line 185). -/
def wipeRadius (w h p : ℚ) : ℚ := max w h * p * (3 / 2)

/-- Centre of the hexagonal wipe: `(width/2, height/2)` (Player.tsx lines 188-189). -/
def hexClipCenter (w h : ℚ) : ℚ × ℚ := (w / 2, h / 2)

/-- Angle of the i-th hexagon vertex, recorded as a rational multiple of π:
the code computes `angle = (i * Math.PI) / 3` (Player.tsx line 187). -/
def hexVertexAngleOverPi (i : ℕ) : ℚ := i / 3

/-- Degrees-to-radians conversion, as a multiple of π: `d°` is `d/180 · π`. -/
def degreesOverPi (d : ℚ) : ℚ := d / 180

/-! ## Velocity-sync engine (Player.tsx lines 229-244) -/

/-- The action the velocity-sync engine takes on the active clip each tick. -/
inductive SyncAction
  | seek (t : ℚ)
  | setRate (r : ℚ)
deriving DecidableEq

/-- Velocity-sync decision (Player.tsx lines 230-240):
`baseRate = (v.duration || sceneDuration) / sceneDuration`,
`targetTime = elapsed * baseRate`, `drift = v.currentTime - targetTime`;
seek when |drift| > 0.5, nudge the rate by ±5% when |drift| > 0.05,
otherwise set the rate to exactly `baseRate`.  The `||` fallback when the
clip duration is unavailable (0) is modelled by the inner conditional. -/
def velocitySync (clipDuration sceneDuration elapsed currentTime : ℚ) : SyncAction :=
  let baseRate := (if clipDuration = 0 then sceneDuration else clipDuration) / sceneDuration
  let targetTime := elapsed * baseRate
  let drift := currentTime - targetTime
  if 1 / 2 < |drift| then .seek targetTime
  else if 1 / 20 < |drift| then
    .setRate (if 0 < drift then baseRate * (19 / 20) else baseRate * (21 / 20))
  else .setRate baseRate

/-! ## Scene lookup and per-frame render passes (Player.tsx `draw`, lines 249-307) -/

/-- Linear first-match scan underlying `Array.findIndex`. -/
def findActiveIdxAux (t : ℚ) : List SceneT → ℕ → Option ℕ
  | [], _ => none
  | s :: rest, i =>
    if s.startTime ≤ t ∧ t < s.endTime then some i else findActiveIdxAux t rest (i + 1)

/-- Embedding of `scenes.findIndex(s => t >= s.startTime && t < s.endTime)` (Player.tsx line 260),
with the -1 "not found" result modelled as `none`. -/
def findActiveIdx (scenes : List SceneT) (t : ℚ) : Option ℕ :=
  findActiveIdxAux t scenes 0

/-- One invocation of `renderSceneFrame` during a frame: which scene is drawn,
in which role, at which transition progress.  The order of passes in the list
is the draw order (earlier = beneath). -/
structure Pass where
  sceneIdx : ℕ
  isOutgoing : Bool
  progress : ℚ
deriving DecidableEq

/-- The scene-content passes composed for one frame at time `t`
(Player.tsx lines 286-306): during the first `TRANSITION_DURATION` seconds
of a non-first scene, the previous scene is drawn first (outgoing, beneath)
and the active scene second (incoming, above), both at progress
`tIn / TRANSITION_DURATION`; otherwise only the active scene at progress 1. -/
def scenePasses (scenes : List SceneT) (t : ℚ) : List Pass :=
  match findActiveIdx scenes t with
  | none => []
  | some idx =>
    match scenes[idx]? with
    | none => []
    | some s =>
      let tIn := t - s.startTime
      if 0 < idx ∧ tIn < TRANSITION_DURATION then
        [⟨idx - 1, true, tIn / TRANSITION_DURATION⟩, ⟨idx, false, tIn / TRANSITION_DURATION⟩]
      else
        [⟨idx, false, 1⟩]

/-! ## Frame layer composition (Player.tsx `draw` lines 281-325 and `exportLoop` lines 442-489)

Each loop composes a frame as a sequence of drawing passes.  The interactive
`draw` renders the scene content, then embers, then the ambient vapor
overlay video, then film grain, then the letterboxing bars.  The
`exportLoop` renders the scene content, then embers (deterministic mode),
then film grain — it contains no ambient-overlay and no letterboxing pass. -/

/-- The compositing layers a render loop may draw, in source order. -/
inductive Layer
  | sceneContent
  | embers
  | ambientOverlay
  | filmGrain
  | letterbox
deriving DecidableEq

/-- The configuration the render loops consult when deciding which layers
to draw for a frame. -/
structure EffectConfig where
  hasActiveScene : Bool
  enableEmbers : Bool
  enableVaporOverlay : Bool
  vaporReady : Bool
  filmGrainStrength : ℚ
  enableLetterboxing : Bool
deriving DecidableEq

/-- Layers drawn by the interactive `draw` loop, in order
(Player.tsx lines 286-325). -/
def interactiveLayers (c : EffectConfig) : List Layer :=
  (if c.hasActiveScene then [.sceneContent] else [])
    ++ (if c.enableEmbers then [.embers] else [])
    ++ (if c.enableVaporOverlay = true ∧ c.vaporReady = true then [.ambientOverlay] else [])
    ++ (if 0 < c.filmGrainStrength then [.filmGrain] else [])
    ++ (if c.enableLetterboxing then [.letterbox] else [])

/-- Layers drawn by `exportLoop` for one frame, in order
(Player.tsx lines 456-477). -/
def exportLayers (c : EffectConfig) : List Layer :=
  (if c.hasActiveScene then [.sceneContent] else [])
    ++ (if c.enableEmbers then [.embers] else [])
    ++ (if 0 < c.filmGrainStrength then [.filmGrain] else [])

/-! ## Ember particle system (Player.tsx `updateParticles` lines 336-357) -/

/-- An ember particle: position, velocity, size and a remaining-life counter
(spawned with life = 180). -/
structure Particle where
  x : ℚ
  y : ℚ
  vx : ℚ
  vy : ℚ
  size : ℚ
  life : ℤ
deriving DecidableEq

/-- Per-tick particle advance: `p.x += p.vx; p.y += p.vy; p.life--`
(Player.tsx line 350). -/
def stepParticle (p : Particle) : Particle :=
  { p with x := p.x + p.vx, y := p.y + p.vy, life := p.life - 1 }

/-- Survival test after the advance: the particle is spliced out when
`p.life <= 0 || p.y < -20` (Player.tsx line 354). -/
def particleAlive (p : Particle) : Bool :=
  !(decide (p.life ≤ 0) || decide (p.y < -20))

/-- One `updateParticles` tick (Player.tsx lines 336-357).  When embers are
disabled the population is cleared.  Otherwise a fresh particle `newP`
(whose random attributes we take as an input) is appended when the
population is strictly below 50 and either deterministic mode is on or the
spawn roll (`Math.random() > 0.6`) succeeded; then every particle advances
and the dead ones are removed. -/
def updateParticles (enableEmbers isDeterministic spawnRoll : Bool)
    (newP : Particle) (ps : List Particle) : List Particle :=
  if enableEmbers = false then []
  else
    let ps1 :=
      if ps.length < 50 ∧ (isDeterministic = true ∨ spawnRoll = true) then ps ++ [newP] else ps
    (ps1.map stepParticle).filter particleAlive

/-- Iterated deterministic-mode ticks starting from an empty population, with
an arbitrary stream of freshly spawned particles (export path: `updateParticles
(ctx, true)`). -/
def runDeterministicTicks (spawns : ℕ → Particle) : ℕ → List Particle
  | 0 => []
  | k + 1 => updateParticles true true false (spawns k) (runDeterministicTicks spawns k)

/-! ## Export-loop liveness and resource release (Player.tsx `handleExport` lines 396-498)

`handleExport` acquires an `AudioContext` and a `MediaRecorder`.  They are
released only inside `recorder.onstop` (lines 424-434), which runs after
`recorder.stop()` is called at the end of the loop.  The loop body
(lines 442-490) checks the liveness flag first: `if (!isExportingRef.current)
return;` — an early return that calls neither `recorder.stop()` nor
`audioCtx.close()`. -/

/-- The export state the loop and its callbacks touch. -/
structure ExportState where
  live : Bool
  clock : ℚ
  total : ℚ
  recorderStopped : Bool
  ctxClosed : Bool
deriving DecidableEq

/-- Outcome of one `exportLoop` iteration. -/
inductive ExportOutcome
  | cancelled
  | continueRender
  | completed
deriving DecidableEq

/-- One `exportLoop` iteration (Player.tsx lines 442-490): the liveness check
comes first and returns without touching the recorder or the context; while
the clock has not reached the narration duration another frame is scheduled;
otherwise `recorder.stop()` runs and its `onstop` handler closes the audio
context and clears the flags. -/
def exportLoopIter (st : ExportState) : ExportState × ExportOutcome :=
  if st.live = false then (st, .cancelled)
  else if st.clock < st.total then (st, .continueRender)
  else ({ st with recorderStopped := true, ctxClosed := true, live := false }, .completed)

/-! ## WAV encoder (geminiService.ts `createWavBlob` lines 344-365) -/

/-- The k-th base-256 digit of x — the byte a little-endian `DataView` write
stores at position k of the field.  (`setUint32`/`setUint16` keep only the
low bits of the value; digit extraction does so automatically.) -/
def byteOfNat (x k : ℕ) : ℕ := x / 256 ^ k % 256

/-- Embedding of `view.setUint32(off, x, true)`: four little-endian bytes. -/
def u32le (x : ℕ) : List ℕ := [byteOfNat x 0, byteOfNat x 1, byteOfNat x 2, byteOfNat x 3]

/-- Embedding of `view.setUint16(off, x, true)`: two little-endian bytes. -/
def u16le (x : ℕ) : List ℕ := [byteOfNat x 0, byteOfNat x 1]

/-- The 44-byte RIFF/WAVE header written by `createWavBlob`
(geminiService.ts lines 346-362), with the ASCII tags "RIFF", "WAVE",
"fmt " and "data" written out as byte values. -/
def createWavHeader (byteLength sampleRate : ℕ) : List ℕ :=
  [82, 73, 70, 70] ++ u32le (36 + byteLength)
    ++ [87, 65, 86, 69]
    ++ [102, 109, 116, 32] ++ u32le 16
    ++ u16le 1 ++ u16le 1
    ++ u32le sampleRate ++ u32le (sampleRate * 2)
    ++ u16le 2 ++ u16le 16
    ++ [100, 97, 116, 97] ++ u32le byteLength

/-- The two little-endian bytes of one Int16Array element (in two-complement form). -/
def int16leBytes (s : ℤ) : List ℕ := [(s % 65536).toNat % 256, (s % 65536).toNat / 256]

/-- Byte image of an Int16Array holding the given samples. -/
def pcmBytes : List ℤ → List ℕ
  | [] => []
  | s :: rest => int16leBytes s ++ pcmBytes rest

/-- Embedding of `createWavBlob`: the 44-byte header (with byteLength the payload byte
count) followed by the PCM payload (geminiService.ts line 364). -/
def createWavBlob (samples : List ℤ) (sampleRate : ℕ) : List ℕ :=
  createWavHeader (pcmBytes samples).length sampleRate ++ pcmBytes samples

/-- Little-endian re-parse of the first `len` bytes of a byte list. -/
def readLE : ℕ → List ℕ → ℕ
  | 0, _ => 0
  | _ + 1, [] => 0
  | n + 1, b :: rest => b + 256 * readLE n rest

/-- Re-parse the little-endian u16 field at byte offset `off`. -/
def readU16 (bytes : List ℕ) (off : ℕ) : ℕ := readLE 2 (bytes.drop off)

/-- Re-parse the little-endian u32 field at byte offset `off`. -/
def readU32 (bytes : List ℕ) (off : ℕ) : ℕ := readLE 4 (bytes.drop off)

/-! ## Silence trimmer (geminiService.ts `trimSilenceFromAudio` lines 286-342)

The decode context is created with sample rate 24000, so in the app the
parameters are: amplitude threshold 0.015, `minSilenceSamples` =
24000 · 0.4 = 9600 and `paddingSamples` = 24000 · 0.1 = 2400.  The
embedding keeps them symbolic.  Sample indices are integers because the
scan subtracts the padding from indices before clamping at 0. -/

/-- A kept sample-index range (`keepSegments` element); `stop` is the
exclusive upper bound (the field named end in the code). -/
structure Seg where
  start : ℤ
  stop : ℤ
deriving DecidableEq

/-- The mutable state of the linear scan of the trimmer: `isSilent`,
`silenceStart` (the index of the most recent loud sample), the -1-sentinel
`currentSegmentStart`, and the accumulated `keepSegments`
(geminiService.ts lines 297-301). -/
structure TrimState where
  isSilent : Bool
  silenceStart : ℤ
  currentSegmentStart : ℤ
  segs : List Seg
deriving DecidableEq

/-- State before the scan starts (lines 297-301). -/
def initTrimState : TrimState := ⟨true, 0, -1, []⟩

/-- One iteration of the scan loop (lines 303-320), processing the sample
`x` at index `i`.  A loud sample (|x| > threshold) opens a segment at
`max 0 (i - pad)` if none is open and records `i` as the last loud index.
A silent sample, when a loud run is open and the span since the last loud
sample exceeds `minSil`, closes the open segment at
`min n (i - minSil + pad)`; otherwise it changes nothing. -/
def trimStep (threshold : ℚ) (minSil pad n : ℤ) (st : TrimState) (i : ℤ) (x : ℚ) :
    TrimState :=
  if threshold < |x| then
    { st with
      currentSegmentStart :=
        if st.currentSegmentStart = -1 then max 0 (i - pad) else st.currentSegmentStart,
      isSilent := false,
      silenceStart := i }
  else if st.isSilent = false ∧ minSil < i - st.silenceStart then
    { isSilent := true, silenceStart := st.silenceStart, currentSegmentStart := -1,
      segs := st.segs ++ [⟨st.currentSegmentStart, min n (i - minSil + pad)⟩] }
  else st

/-- The scan over the whole sample list, carrying the running index. -/
def trimScan (threshold : ℚ) (minSil pad n : ℤ) : ℤ → TrimState → List ℚ → TrimState
  | _, st, [] => st
  | i, st, x :: rest =>
    trimScan threshold minSil pad n (i + 1) (trimStep threshold minSil pad n st i x) rest

/-- The kept segments of a waveform: the scan result plus the final flush
that closes a segment still in progress at the signal end
(lines 303-325). -/
def keepSegments (threshold : ℚ) (minSil pad : ℤ) (samples : List ℚ) : List Seg :=
  let n : ℤ := samples.length
  let st := trimScan threshold minSil pad n 0 initTrimState samples
  if st.currentSegmentStart = -1 then st.segs
  else st.segs ++ [⟨st.currentSegmentStart, n⟩]

/-- Truncation toward zero, as the Int16Array element store performs. -/
def ratTrunc (y : ℚ) : ℤ := if 0 ≤ y then y.floor else y.ceil

/-- Embedding of `Math.max(-1, Math.min(1, channelData[j])) * 32767` stored into an
Int16Array element (line 335); an out-of-range read yields 0. -/
def quantAt (samples : List ℚ) (j : ℤ) : ℤ :=
  if 0 ≤ j then
    match samples[j.toNat]? with
    | some x => ratTrunc (max (-1) (min 1 x) * 32767)
    | none => 0
  else 0

/-- The inner copy loop for one kept segment (lines 333-337). -/
def segOutput (samples : List ℚ) (s : Seg) : List ℤ :=
  (List.range (s.stop - s.start).toNat).map fun (k : ℕ) => quantAt samples (s.start + (k : ℤ))

/-- Result of `trimSilenceFromAudio`: either the original blob, untouched,
or a freshly encoded trimmed PCM buffer. -/
inductive TrimResult
  | original
  | trimmed (pcm : List ℤ)
deriving DecidableEq

/-- Embedding of `trimSilenceFromAudio` on a decoded waveform: when the scan kept no
segment the original blob is returned unmodified (line 327); otherwise the
kept segments are concatenated into the output buffer (lines 329-337). -/
def trimSilence (threshold : ℚ) (minSil pad : ℤ) (samples : List ℚ) : TrimResult :=
  let segs := keepSegments threshold minSil pad samples
  if segs = [] then .original
  else .trimmed ((segs.map (segOutput samples)).flatten)

/-- Well-formedness of one kept segment for a signal of `n` samples: the
copy loop `for j = start; j < stop; j++` reads only indices in `[0, n)`. -/
def SegWF (n : ℤ) (s : Seg) : Prop := 0 ≤ s.start ∧ s.start < s.stop ∧ s.stop ≤ n

/-- Invariant carried by the scan when it is about to process
index `i` of an `n`-sample signal. -/
def TrimInv (pad n i : ℤ) (st : TrimState) : Prop :=
  (∀ s ∈ st.segs, SegWF n s) ∧
  st.segs.Chain' (fun a b => a.stop ≤ b.start) ∧
  0 ≤ st.silenceStart ∧
  (st.isSilent = true ↔ st.currentSegmentStart = -1) ∧
  (st.currentSegmentStart ≠ -1 →
    0 ≤ st.currentSegmentStart ∧ st.currentSegmentStart ≤ st.silenceStart ∧
    st.silenceStart < i ∧ st.silenceStart < n ∧
    ∀ s ∈ st.segs, s.stop ≤ st.currentSegmentStart) ∧
  (st.currentSegmentStart = -1 → ∀ s ∈ st.segs, s.stop ≤ max 0 (i - pad))

/-! ## Theorems -/

/-- An Int16Array of n samples occupies 2n bytes. -/
lemma pcmBytes_length (samples : List ℤ) : (pcmBytes samples).length = 2 * samples.length := by
  induction samples with
  | nil => rfl
  | cons s rest ih =>
    simp only [pcmBytes, int16leBytes, List.length_append, List.length_cons, ih]
    simp
    omega

/-- Every tick keeps the ember population at or below the cap of 50. -/
lemma updateParticles_length_le (enableEmbers isDeterministic spawnRoll : Bool)
    (newP : Particle) (ps : List Particle) (hps : ps.length ≤ 50) :
    (updateParticles enableEmbers isDeterministic spawnRoll newP ps).length ≤ 50 := by
  simp only [updateParticles]
  split
  · simp
  · split
    · next h =>
      obtain ⟨h1, -⟩ := h
      calc (((ps ++ [newP]).map stepParticle).filter particleAlive).length
          ≤ ((ps ++ [newP]).map stepParticle).length := List.length_filter_le _ _
        _ = ps.length + 1 := by simp
        _ ≤ 50 := by omega
    · calc ((ps.map stepParticle).filter particleAlive).length
          ≤ (ps.map stepParticle).length := List.length_filter_le _ _
        _ = ps.length := by simp
        _ ≤ 50 := hps

/-- Iterating deterministic ticks from the empty population never exceeds
the cap. -/
lemma runDeterministicTicks_length_le (spawns : ℕ → Particle) (k : ℕ) :
    (runDeterministicTicks spawns k).length ≤ 50 := by
  induction k with
  | zero => simp [runDeterministicTicks]
  | succ k ih => exact updateParticles_length_le _ _ _ _ _ ih

/-- C3: On every tick with an active clip, with
`baseRate = clipDuration / sceneDuration`, `targetPosition = elapsed * baseRate`
and `drift = currentClipPosition - targetPosition`: if |drift| > 0.5 the clip
position is set directly to `targetPosition`; else if |drift| > 0.05 the
playback rate is set to `baseRate * 0.95` when the clip is ahead (drift > 0)
and `baseRate * 1.05` when it is behind; otherwise the playback rate is set to
exactly `baseRate`. -/
theorem velocitySync_policy (clipDuration sceneDuration elapsed currentTime : ℚ)
    (hc : clipDuration ≠ 0) :
    (1 / 2 < |currentTime - elapsed * (clipDuration / sceneDuration)| →
      velocitySync clipDuration sceneDuration elapsed currentTime
        = .seek (elapsed * (clipDuration / sceneDuration))) ∧
    (|currentTime - elapsed * (clipDuration / sceneDuration)| ≤ 1 / 2 →
      1 / 20 < |currentTime - elapsed * (clipDuration / sceneDuration)| →
      0 < currentTime - elapsed * (clipDuration / sceneDuration) →
      velocitySync clipDuration sceneDuration elapsed currentTime
        = .setRate (clipDuration / sceneDuration * (19 / 20))) ∧
    (|currentTime - elapsed * (clipDuration / sceneDuration)| ≤ 1 / 2 →
      1 / 20 < |currentTime - elapsed * (clipDuration / sceneDuration)| →
      currentTime - elapsed * (clipDuration / sceneDuration) ≤ 0 →
      velocitySync clipDuration sceneDuration elapsed currentTime
        = .setRate (clipDuration / sceneDuration * (21 / 20))) ∧
    (|currentTime - elapsed * (clipDuration / sceneDuration)| ≤ 1 / 20 →
      velocitySync clipDuration sceneDuration elapsed currentTime
        = .setRate (clipDuration / sceneDuration)) := by
  simp only [velocitySync, if_neg hc]
  refine ⟨fun h => ?_, fun h1 h2 h3 => ?_, fun h1 h2 h3 => ?_, fun h => ?_⟩
  · rw [if_pos h]
  · rw [if_neg (not_lt.mpr h1), if_pos h2, if_pos h3]
  · rw [if_neg (not_lt.mpr h1), if_pos h2, if_neg (not_lt.mpr h3)]
  · have hle : |currentTime - elapsed * (clipDuration / sceneDuration)| ≤ 1 / 2 := by
      linarith
    rw [if_neg (not_lt.mpr hle), if_neg (not_lt.mpr h)]

/-- Witness for `velocitySync_policy`: a concrete clip 8 s long in a 4 s scene
slot (baseRate 2) with the clip 0.1 s ahead of target gets its rate nudged
down to `2 * 0.95 = 1.9`. -/
theorem velocitySync_policy_witness :
    velocitySync 8 4 1 (21 / 10) = .setRate (8 / 4 * (19 / 20)) := by
  have habs : |(21 : ℚ) / 10 - 1 * (8 / 4)| = 1 / 10 := by
    rw [show (21 : ℚ) / 10 - 1 * (8 / 4) = 1 / 10 by norm_num]
    exact abs_of_pos (by norm_num)
  exact (velocitySync_policy 8 4 1 (21 / 10) (by norm_num)).2.1
    (by rw [habs]; norm_num) (by rw [habs]; norm_num) (by norm_num)

/-- C6: For two adjacent scenes [0,5) and [5,10) with standard-fade
transitions, rendering at t = 5.4 (transition window 1.0 s) draws both
scenes — the outgoing scene beneath at opacity 0.6 and the incoming scene
above at opacity 0.4 — and in general, within the window the outgoing
opacity is `1 - p` and the incoming opacity is `p`. -/
theorem standardFade_opacities :
    (∀ p : ℚ, sceneOpacity .standard true p = 1 - p ∧ sceneOpacity .standard false p = p) ∧
    scenePasses [⟨0, 5, .standard⟩, ⟨5, 10, .standard⟩] (27 / 5)
      = [⟨0, true, 2 / 5⟩, ⟨1, false, 2 / 5⟩] ∧
    sceneOpacity .standard true (2 / 5) = 3 / 5 ∧
    sceneOpacity .standard false (2 / 5) = 2 / 5 := by
  refine ⟨fun p => ⟨rfl, rfl⟩, ?_,
    by rw [show sceneOpacity .standard true (2 / 5) = 1 - 2 / 5 from rfl]; norm_num, rfl⟩
  norm_num [scenePasses, findActiveIdx, findActiveIdxAux, TRANSITION_DURATION, Pass.mk.injEq]

/-- C7: For a polygon-wipe transition at progress p, the outgoing scene is
drawn fully opaque (opacity 1, not faded) and the incoming scene is drawn
opaque but clipped to a hexagon centred at (width/2, height/2) with vertex
radius `max(width, height) * p * 1.5` and vertices at angles i·60° for
i in 0..5; at width 1280, height 720, p = 0.5 the radius is 960. -/
theorem polygonWipe_geometry :
    (∀ p : ℚ, sceneOpacity .polygonWipe true p = 1 ∧ sceneOpacity .polygonWipe false p = 1) ∧
    (∀ tt isOutgoing, hexClipApplied tt isOutgoing = true ↔
      tt = .polygonWipe ∧ isOutgoing = false) ∧
    (∀ w h p : ℚ, wipeRadius w h p = max w h * p * (3 / 2)) ∧
    wipeRadius 1280 720 (1 / 2) = 960 ∧
    hexClipCenter 1280 720 = (640, 360) ∧
    (∀ i : ℕ, hexVertexAngleOverPi i = degreesOverPi (i * 60)) := by
  have hmax : max (1280 : ℚ) 720 = 1280 := max_eq_left (by norm_num)
  refine ⟨fun p => ⟨rfl, rfl⟩, ?_, fun w h p => rfl, ?_, ?_, fun i => ?_⟩
  · intro tt isOutgoing
    cases tt <;> cases isOutgoing <;> simp [hexClipApplied]
  · unfold wipeRadius
    rw [hmax]
    norm_num
  · unfold hexClipCenter
    norm_num [Prod.ext_iff]
  · unfold hexVertexAngleOverPi degreesOverPi
    ring

/-- C2 counterexample: with every effect enabled (grain strength 1), the
interactive loop composes scene content → embers → ambient overlay → film
grain → letterboxing, but the export loop composes only scene content →
embers → film grain, so the two loops do not draw the same layers. -/
theorem render_loops_compose_different_layers :
    interactiveLayers ⟨true, true, true, true, 1, true⟩
      = [.sceneContent, .embers, .ambientOverlay, .filmGrain, .letterbox] ∧
    exportLayers ⟨true, true, true, true, 1, true⟩
      = [.sceneContent, .embers, .filmGrain] ∧
    interactiveLayers ⟨true, true, true, true, 1, true⟩
      ≠ exportLayers ⟨true, true, true, true, 1, true⟩ := by
  have h1 : interactiveLayers ⟨true, true, true, true, 1, true⟩
      = [.sceneContent, .embers, .ambientOverlay, .filmGrain, .letterbox] := by
    norm_num [interactiveLayers]
  have h2 : exportLayers ⟨true, true, true, true, 1, true⟩
      = [.sceneContent, .embers, .filmGrain] := by
    norm_num [exportLayers]
  exact ⟨h1, h2, by rw [h1, h2]; simp⟩

/-- C2 amended: for every effect configuration, the export loop draws the
layers of the interactive loop with the ambient overlay video and the
letterboxing passes removed; the layers the two loops share appear in the
same fixed order (scene content → embers → film grain). -/
theorem export_layers_are_filtered_interactive (c : EffectConfig) :
    exportLayers c
      = (interactiveLayers c).filter
          (fun l => !(l == Layer.ambientOverlay || l == Layer.letterbox)) := by
  obtain ⟨a, e, v, r, g, lb⟩ := c
  by_cases hg : 0 < g <;>
    cases a <;> cases e <;> cases v <;> cases r <;> cases lb <;>
      simp [interactiveLayers, exportLayers, hg]

/-- C8: The live ember population never exceeds 50: a tick from a population
at or below the cap stays at or below the cap (a particle is spawned only
when the population is strictly below 50), and any number of
deterministic-mode ticks from the empty population — in particular the
first 200 — never produces more than 50 live particles. -/
theorem ember_population_cap :
    (∀ (enableEmbers isDeterministic spawnRoll : Bool) (newP : Particle)
        (ps : List Particle), ps.length ≤ 50 →
      (updateParticles enableEmbers isDeterministic spawnRoll newP ps).length ≤ 50) ∧
    (∀ (spawns : ℕ → Particle) (k : ℕ), k ≤ 200 →
      (runDeterministicTicks spawns k).length ≤ 50) :=
  ⟨updateParticles_length_le, fun spawns k _ => runDeterministicTicks_length_le spawns k⟩

/-- Witness for `ember_population_cap` at a concrete tick and at 200
deterministic ticks from empty. -/
theorem ember_population_cap_witness :
    (updateParticles true true false ⟨0, 0, 0, 0, 1, 180⟩ []).length ≤ 50 ∧
    (runDeterministicTicks (fun _ => ⟨0, 0, 0, 0, 1, 180⟩) 200).length ≤ 50 :=
  ⟨ember_population_cap.1 true true false ⟨0, 0, 0, 0, 1, 180⟩ [] (by simp),
   ember_population_cap.2 (fun _ => ⟨0, 0, 0, 0, 1, 180⟩) 200 (by norm_num)⟩

/-- C9 counterexample: with the liveness flag cleared mid-export (clock 0,
total 10, resources live), the loop iteration returns the cancellation
outcome but neither stops the recorder nor closes the audio context — the
acquired resources are not released on this path. -/
theorem export_cancel_releases_nothing :
    (exportLoopIter ⟨false, 0, 10, false, false⟩).2 = .cancelled ∧
    (exportLoopIter ⟨false, 0, 10, false, false⟩).1.recorderStopped = false ∧
    (exportLoopIter ⟨false, 0, 10, false, false⟩).1.ctxClosed = false :=
  ⟨rfl, rfl, rfl⟩

/-- C9 amended: when the liveness flag is cleared mid-export the loop
detects it at the top of the next iteration and stops as a non-error
cancellation, but this path releases nothing — the recorder is not stopped
and the audio context is not closed; those resources are released only by
the `recorder.onstop` handler reached on the normal completion path. -/
theorem export_cancel_clean_but_no_release (st : ExportState) (h : st.live = false) :
    exportLoopIter st = (st, .cancelled) ∧
    (∀ st2 : ExportState, st2.live = true → ¬st2.clock < st2.total →
      (exportLoopIter st2).2 = .completed ∧
      (exportLoopIter st2).1.recorderStopped = true ∧
      (exportLoopIter st2).1.ctxClosed = true) := by
  constructor
  · simp [exportLoopIter, h]
  · intro st2 h2 hclock
    simp [exportLoopIter, h2, hclock]

/-- Witness for `export_cancel_clean_but_no_release` at a concrete
cancelled state. -/
theorem export_cancel_clean_but_no_release_witness :
    exportLoopIter ⟨false, 3, 10, false, false⟩ = (⟨false, 3, 10, false, false⟩, .cancelled) :=
  (export_cancel_clean_but_no_release ⟨false, 3, 10, false, false⟩ rfl).1

/-- The little-endian u32 digit decomposition re-assembles any value below
2³². -/
lemma readLE4_digits (x : ℕ) (hx : x < 4294967296) :
    byteOfNat x 0
      + 256 * (byteOfNat x 1 + 256 * (byteOfNat x 2 + 256 * (byteOfNat x 3 + 256 * 0)))
      = x := by
  have h2 : (256 : ℕ) ^ 2 = 65536 := by norm_num
  have h3 : (256 : ℕ) ^ 3 = 16777216 := by norm_num
  simp only [byteOfNat, pow_zero, pow_one, h2, h3, Nat.div_one]
  omega

/-- Field-by-field evaluation of `createWavHeader` under re-parsing, for
arbitrary field values. -/
lemma wavHeader_reads (L sr : ℕ) (pcm : List ℕ) :
    (createWavHeader L sr).length = 44 ∧
    readU16 (createWavHeader L sr ++ pcm) 22 = 1 ∧
    readU16 (createWavHeader L sr ++ pcm) 34 = 16 ∧
    readU32 (createWavHeader L sr ++ pcm) 24
      = byteOfNat sr 0
        + 256 * (byteOfNat sr 1 + 256 * (byteOfNat sr 2 + 256 * (byteOfNat sr 3 + 256 * 0))) ∧
    readU32 (createWavHeader L sr ++ pcm) 40
      = byteOfNat L 0
        + 256 * (byteOfNat L 1 + 256 * (byteOfNat L 2 + 256 * (byteOfNat L 3 + 256 * 0))) ∧
    readU32 (createWavHeader L sr ++ pcm) 4
      = byteOfNat (36 + L) 0
        + 256 * (byteOfNat (36 + L) 1
          + 256 * (byteOfNat (36 + L) 2 + 256 * (byteOfNat (36 + L) 3 + 256 * 0))) := by
  refine ⟨?_, ?_, ?_, ?_, ?_, ?_⟩ <;> rfl

/-- C5: For every Int16 PCM sample array and sample rate, the WAV blob
produced by `createWavBlob` has a 44-byte header from which re-parsing
recovers exactly: channel count 1 (offset 22), bits per sample 16
(offset 34), the given sample rate (offset 24), a data chunk size equal to
2·sampleCount bytes (offset 40), and a RIFF size field equal to
36 + payload byte length (offset 4).  The side conditions keep the u32
fields below the 2³² wrap of `setUint32`. -/
theorem createWav_header_roundtrip (samples : List ℤ) (sampleRate : ℕ)
    (hsr : sampleRate < 2 ^ 32) (hlen : 36 + 2 * samples.length < 2 ^ 32) :
    (createWavBlob samples sampleRate).length = 44 + 2 * samples.length ∧
    readU16 (createWavBlob samples sampleRate) 22 = 1 ∧
    readU16 (createWavBlob samples sampleRate) 34 = 16 ∧
    readU32 (createWavBlob samples sampleRate) 24 = sampleRate ∧
    readU32 (createWavBlob samples sampleRate) 40 = 2 * samples.length ∧
    readU32 (createWavBlob samples sampleRate) 4 = 36 + 2 * samples.length := by
  have hplen := pcmBytes_length samples
  have hsrN : sampleRate < 4294967296 := by norm_num at hsr; exact hsr
  have hlenN : 36 + 2 * samples.length < 4294967296 := by norm_num at hlen; exact hlen
  obtain ⟨hh, h22, h34, h24, h40, h4⟩ :=
    wavHeader_reads (pcmBytes samples).length sampleRate (pcmBytes samples)
  rw [createWavBlob]
  refine ⟨?_, h22, h34, ?_, ?_, ?_⟩
  · rw [List.length_append, hh, hplen]
  · rw [h24, readLE4_digits sampleRate hsrN]
  · rw [h40, hplen, readLE4_digits (2 * samples.length) (by omega)]
  · rw [h4, hplen, readLE4_digits (36 + 2 * samples.length) hlenN]

/-- Witness for `createWav_header_roundtrip`: a two-sample array at
24000 Hz. -/
theorem createWav_header_roundtrip_witness :
    readU32 (createWavBlob [1000, -2] 24000) 24 = 24000 ∧
    readU32 (createWavBlob [1000, -2] 24000) 40 = 2 * ([1000, -2] : List ℤ).length :=
  ⟨(createWav_header_roundtrip [1000, -2] 24000 (by norm_num) (by norm_num)).2.2.2.1,
   (createWav_header_roundtrip [1000, -2] 24000 (by norm_num) (by norm_num)).2.2.2.2.1⟩

/-- A scan over samples that never exceed the threshold leaves the initial
state untouched: no segment is ever opened. -/
lemma trimScan_all_silent (threshold : ℚ) (minSil pad n : ℤ) (samples : List ℚ)
    (h : ∀ x ∈ samples, |x| ≤ threshold) :
    ∀ i : ℤ, trimScan threshold minSil pad n i initTrimState samples = initTrimState := by
  induction samples with
  | nil => intro i; rfl
  | cons x rest ih =>
    intro i
    have hx : ¬threshold < |x| := not_lt.mpr (h x (by simp))
    have hstep : trimStep threshold minSil pad n initTrimState i x = initTrimState := by
      simp [trimStep, hx, initTrimState]
    rw [trimScan, hstep]
    exact ih (fun y hy => h y (by simp [hy])) (i + 1)

/-- C1: For every input waveform, if the scan of the silence trimmer produces
zero kept segments, `trimSilenceFromAudio` returns the original audio blob
unmodified — never an empty result; and an all-silent input (every sample
at or below the amplitude threshold) does produce zero kept segments. -/
theorem trimSilence_empty_scan_returns_original (threshold : ℚ) (minSil pad : ℤ)
    (samples : List ℚ) :
    (keepSegments threshold minSil pad samples = [] →
      trimSilence threshold minSil pad samples = .original) ∧
    ((∀ x ∈ samples, |x| ≤ threshold) →
      keepSegments threshold minSil pad samples = []) := by
  constructor
  · intro h
    simp [trimSilence, h]
  · intro h
    rw [keepSegments]
    simp only [trimScan_all_silent threshold minSil pad _ samples h 0]
    rfl

/-- Witness for `trimSilence_empty_scan_returns_original`: a two-sample
waveform entirely at or below the 0.015 threshold, with the in-app 24 kHz
parameters, comes back as the original blob. -/
theorem trimSilence_empty_scan_returns_original_witness :
    trimSilence (3 / 200) 9600 2400 [0, 1 / 100] = .original := by
  have h := trimSilence_empty_scan_returns_original (3 / 200) 9600 2400 [0, 1 / 100]
  refine h.1 (h.2 ?_)
  intro x hx
  simp only [List.mem_cons, List.not_mem_nil, or_false] at hx
  rcases hx with rfl | rfl
  · rw [abs_zero]; norm_num
  · rw [abs_of_nonneg (by norm_num)]; norm_num

/-- C4: In the linear scan of the silence trimmer — (a) at the first silent
index i after a loud run at which the silence span exceeds
`minSilenceSamples` (i.e. `i - silenceStart > minSilenceSamples`, where
`silenceStart` is the last loud index), the open kept segment is closed at
`min n (i - minSilenceSamples + paddingSamples)`, i.e. the cut
formula clamped to the signal length, and the segment-in-progress marker is
reset; (b) a silence span not exceeding `minSilenceSamples` causes no cut
and leaves the state unchanged; (c) the next kept segment starts at the
next loud sample index minus the padding (clamped at 0); (d) a segment in
progress at end-of-signal is closed at the signal end. -/
theorem trimStep_cut_boundaries (threshold : ℚ) (minSil pad n : ℤ) (st : TrimState)
    (i : ℤ) (x : ℚ) :
    (|x| ≤ threshold → st.isSilent = false → minSil < i - st.silenceStart →
      trimStep threshold minSil pad n st i x
        = { isSilent := true, silenceStart := st.silenceStart, currentSegmentStart := -1,
            segs := st.segs ++ [⟨st.currentSegmentStart, min n (i - minSil + pad)⟩] }) ∧
    (|x| ≤ threshold → i - st.silenceStart ≤ minSil →
      trimStep threshold minSil pad n st i x = st) ∧
    (threshold < |x| → st.currentSegmentStart = -1 →
      (trimStep threshold minSil pad n st i x).currentSegmentStart = max 0 (i - pad)) ∧
    (∀ samples : List ℚ,
      (trimScan threshold minSil pad (samples.length : ℤ) 0 initTrimState
          samples).currentSegmentStart ≠ -1 →
      keepSegments threshold minSil pad samples
        = (trimScan threshold minSil pad (samples.length : ℤ) 0 initTrimState samples).segs
          ++ [⟨(trimScan threshold minSil pad (samples.length : ℤ) 0 initTrimState
                  samples).currentSegmentStart, (samples.length : ℤ)⟩]) := by
  refine ⟨fun hx hsil hspan => ?_, fun hx hspan => ?_, fun hx hseg => ?_, fun samples hflush => ?_⟩
  · rw [trimStep, if_neg (not_lt.mpr hx), if_pos ⟨hsil, hspan⟩]
  · rw [trimStep, if_neg (not_lt.mpr hx), if_neg]
    rintro ⟨-, hlt⟩
    omega
  · rw [trimStep, if_pos hx]
    simp [hseg]
  · rw [keepSegments]
    simp only [if_neg hflush]

/-- Witness for `trimStep_cut_boundaries`: with minSil = 4, pad = 1, a
silent sample at index 10 after a loud run ending at index 5 closes the
open segment started at 2 at min(100, 10 - 4 + 1) = 7. -/
theorem trimStep_cut_boundaries_witness :
    trimStep (3 / 200) 4 1 100 ⟨false, 5, 2, []⟩ 10 0
      = { isSilent := true, silenceStart := 5, currentSegmentStart := -1,
          segs := [] ++ [⟨2, min 100 (10 - 4 + 1)⟩] } :=
  (trimStep_cut_boundaries (3 / 200) 4 1 100 ⟨false, 5, 2, []⟩ 10 0).1
    (by rw [abs_zero]; norm_num) rfl (by norm_num)

/-- The scan step preserves the invariant whenever the padding is
non-negative and `2·pad ≤ minSil + 1` (true of the in-app parameters
2·2400 ≤ 9601). -/
lemma trimStep_inv (threshold : ℚ) (minSil pad n : ℤ) (hpad : 0 ≤ pad)
    (hms : 2 * pad ≤ minSil + 1) {i : ℤ} {st : TrimState} (x : ℚ)
    (hi0 : 0 ≤ i) (hin : i < n) (hinv : TrimInv pad n i st) :
    TrimInv pad n (i + 1) (trimStep threshold minSil pad n st i x) := by
  obtain ⟨h1, h2, h3, h4, h5, h6⟩ := hinv
  by_cases hl : threshold < |x|
  · -- loud sample: open a segment if none is open, record the loud index
    rw [trimStep, if_pos hl]
    set cNew := if st.currentSegmentStart = -1 then max 0 (i - pad)
      else st.currentSegmentStart with hcNewDef
    have hcNewP : 0 ≤ cNew ∧ cNew ≤ i ∧ ∀ s ∈ st.segs, s.stop ≤ cNew := by
      by_cases h : st.currentSegmentStart = -1
      · rw [hcNewDef, if_pos h]
        exact ⟨le_max_left _ _, max_le hi0 (by omega), h6 h⟩
      · rw [hcNewDef, if_neg h]
        obtain ⟨ha, hb, hcv, hd, he⟩ := h5 h
        exact ⟨ha, by omega, he⟩
    obtain ⟨hcNew0, hcNewI, hcNewStops⟩ := hcNewP
    have hcNewNe : cNew ≠ -1 := by omega
    show TrimInv pad n (i + 1) ⟨false, i, cNew, st.segs⟩
    refine ⟨h1, h2, hi0, by simp [hcNewNe],
      fun _ => ⟨hcNew0, hcNewI, show i < i + 1 by omega, hin, hcNewStops⟩, fun h => absurd h hcNewNe⟩
  · rw [trimStep, if_neg hl]
    by_cases hc : st.isSilent = false ∧ minSil < i - st.silenceStart
    · -- silent sample ending a loud run: close the open segment
      rw [if_pos hc]
      have hcne : st.currentSegmentStart ≠ -1 := by
        intro h
        have hT := h4.mpr h
        rw [hc.1] at hT
        exact Bool.noConfusion hT
      obtain ⟨hc0, hcs, hsi, hsn, hstops⟩ := h5 hcne
      have hspan := hc.2
      have he1 : min n (i - minSil + pad) ≤ n := min_le_left _ _
      have he2 : min n (i - minSil + pad) ≤ i - minSil + pad := min_le_right _ _
      have hce : st.currentSegmentStart < min n (i - minSil + pad) :=
        lt_min (by omega) (by omega)
      refine ⟨?_, ?_, h3, by simp, fun h => (h rfl).elim, fun _ s hs => ?_⟩
      · intro s hs
        rcases List.mem_append.mp hs with h | h
        · exact h1 s h
        · simp only [List.mem_singleton] at h
          subst h
          exact ⟨hc0, hce, he1⟩
      · apply List.chain'_append.mpr
        refine ⟨h2, List.chain'_singleton _, ?_⟩
        intro a ha b hb
        simp only [List.head?_cons, Option.mem_def, Option.some.injEq] at hb
        subst hb
        have haseg : a ∈ st.segs := by
          obtain ⟨hne, rfl⟩ := List.mem_getLast?_eq_getLast ha
          exact List.getLast_mem hne
        exact hstops a haseg
      · rcases List.mem_append.mp hs with h | h
        · have hsStop := hstops s h
          exact le_trans (show s.stop ≤ i + 1 - pad by omega) (le_max_right _ _)
        · simp only [List.mem_singleton] at h
          subst h
          exact le_trans (show min n (i - minSil + pad) ≤ i + 1 - pad by omega)
            (le_max_right _ _)
    · -- silent sample inside an already-silent span or a short gap: no change
      rw [if_neg hc]
      refine ⟨h1, h2, h3, h4, fun h => ?_, fun h s hs => ?_⟩
      · obtain ⟨ha, hb, hcv, hd, he⟩ := h5 h
        exact ⟨ha, hb, by omega, hd, he⟩
      · exact le_trans (h6 h s hs) (max_le_max le_rfl (by omega))

/-- The whole scan preserves the invariant up to the end of the signal. -/
lemma trimScan_inv (threshold : ℚ) (minSil pad n : ℤ) (hpad : 0 ≤ pad)
    (hms : 2 * pad ≤ minSil + 1) :
    ∀ (samples : List ℚ) (i : ℤ) (st : TrimState), 0 ≤ i →
      i + (samples.length : ℤ) = n → TrimInv pad n i st →
      TrimInv pad n n (trimScan threshold minSil pad n i st samples) := by
  intro samples
  induction samples with
  | nil =>
    intro i st h0 hn hinv
    have hi : i = n := by simpa using hn
    rw [trimScan]
    exact hi ▸ hinv
  | cons x rest ih =>
    intro i st h0 hn hinv
    simp only [List.length_cons] at hn
    push_cast at hn
    rw [trimScan]
    exact ih (i + 1) _ (by omega) (by omega)
      (trimStep_inv threshold minSil pad n hpad hms x h0 (by omega) hinv)

/-- The invariant holds before the scan starts. -/
lemma initTrimState_inv (pad n : ℤ) : TrimInv pad n 0 initTrimState := by
  refine ⟨by simp [initTrimState], by simp [initTrimState], le_refl 0,
    by simp [initTrimState], fun h => absurd rfl h, fun _ => by simp [initTrimState]⟩

/-- Every kept segment of the final list is well-formed and the list is
chained (each segment ends no later than the next begins). -/
lemma keepSegments_wf (threshold : ℚ) (minSil pad : ℤ) (hpad : 0 ≤ pad)
    (hms : 2 * pad ≤ minSil + 1) (samples : List ℚ) :
    (∀ s ∈ keepSegments threshold minSil pad samples, SegWF (samples.length : ℤ) s) ∧
    (keepSegments threshold minSil pad samples).Chain' (fun a b => a.stop ≤ b.start) := by
  have hinv := trimScan_inv threshold minSil pad (samples.length : ℤ) hpad hms samples 0
    initTrimState le_rfl (by omega) (initTrimState_inv pad _)
  obtain ⟨h1, h2, h3, h4, h5, h6⟩ := hinv
  have hKS : keepSegments threshold minSil pad samples
      = if (trimScan threshold minSil pad (samples.length : ℤ) 0 initTrimState
            samples).currentSegmentStart = -1
        then (trimScan threshold minSil pad (samples.length : ℤ) 0 initTrimState samples).segs
        else (trimScan threshold minSil pad (samples.length : ℤ) 0 initTrimState samples).segs
          ++ [⟨(trimScan threshold minSil pad (samples.length : ℤ) 0 initTrimState
                  samples).currentSegmentStart, (samples.length : ℤ)⟩] := rfl
  rw [hKS]
  by_cases hc : (trimScan threshold minSil pad (samples.length : ℤ) 0 initTrimState
      samples).currentSegmentStart = -1
  · rw [if_pos hc]
    exact ⟨h1, h2⟩
  · rw [if_neg hc]
    obtain ⟨hc0, hcs, hsi, hsn, hstops⟩ := h5 hc
    constructor
    · intro s hs
      rcases List.mem_append.mp hs with h | h
      · exact h1 s h
      · simp only [List.mem_singleton] at h
        subst h
        exact ⟨hc0, lt_of_le_of_lt hcs hsn, le_refl _⟩
    · apply List.chain'_append.mpr
      refine ⟨h2, List.chain'_singleton _, ?_⟩
      intro a ha b hb
      simp only [List.head?_cons, Option.mem_def, Option.some.injEq] at hb
      subst hb
      have haseg : a ∈ (trimScan threshold minSil pad (samples.length : ℤ) 0 initTrimState
          samples).segs := by
        obtain ⟨hne, rfl⟩ := List.mem_getLast?_eq_getLast ha
        exact List.getLast_mem hne
      exact hstops a haseg

/-- Sum of the lengths of a chained run of well-formed segments starting at
`a` is bounded by the space to the right of `a.start`. -/
lemma chain_sum_le_aux (n : ℤ) :
    ∀ (segs : List Seg) (a : Seg),
      (∀ s ∈ a :: segs, s.start < s.stop ∧ s.stop ≤ n) →
      (a :: segs).Chain' (fun u v => u.stop ≤ v.start) →
      ((a :: segs).map fun s => s.stop - s.start).sum ≤ n - a.start := by
  intro segs
  induction segs with
  | nil =>
    intro a hwf _
    have := hwf a (by simp)
    simp only [List.map_cons, List.map_nil, List.sum_cons, List.sum_nil]
    omega
  | cons b rest ih =>
    intro a hwf hch
    have hab : a.stop ≤ b.start := (List.chain'_cons.mp hch).1
    have hrest := ih b (fun s hs => hwf s (by simp only [List.mem_cons] at hs ⊢; tauto))
      (List.chain'_cons.mp hch).2
    have ha := hwf a (by simp)
    simp only [List.map_cons, List.sum_cons] at hrest ⊢
    omega

/-- The total number of kept samples never exceeds the signal length. -/
lemma segs_sum_le (n : ℤ) (hn : 0 ≤ n) (segs : List Seg)
    (hwf : ∀ s ∈ segs, SegWF n s)
    (hch : segs.Chain' (fun a b => a.stop ≤ b.start)) :
    ((segs.map fun s => s.stop - s.start).sum) ≤ n := by
  cases segs with
  | nil => simpa using hn
  | cons a rest =>
    have hsum := chain_sum_le_aux n rest a
      (fun s hs => ⟨(hwf s hs).2.1, (hwf s hs).2.2⟩) hch
    have ha := (hwf a (by simp)).1
    omega

/-- The copy loop of one segment emits `stop - start` samples. -/
lemma segOutput_length (samples : List ℚ) (s : Seg) :
    (segOutput samples s).length = (s.stop - s.start).toNat := by
  rw [segOutput, List.length_map, List.length_range]

/-- The natural-number sum of segment lengths coincides with the integer
sum when every segment has `start ≤ stop`. -/
lemma segs_toNat_sum (segs : List Seg) (h : ∀ s ∈ segs, s.start ≤ s.stop) :
    ((((segs.map fun s => (s.stop - s.start).toNat).sum : ℕ) : ℤ))
      = (segs.map fun s => s.stop - s.start).sum := by
  induction segs with
  | nil => simp
  | cons a rest ih =>
    simp only [List.map_cons, List.sum_cons, Nat.cast_add]
    rw [ih (fun s hs => h s (by simp [hs])),
      Int.toNat_of_nonneg (by have := h a (by simp); omega)]

/-- C10: Every kept segment computed by the silence trimmer is well-formed
(0 ≤ start < stop ≤ sample count), the segments are in increasing order and
non-overlapping, and the output sample count (the sum of the segment
lengths) never exceeds the input sample count — so building the output
buffer never reads outside the input.  The parameter hypotheses
(non-negative padding, `2·pad ≤ minSil + 1`) hold for the in-app 24 kHz
parameters pad = 2400, minSil = 9600. -/
theorem keepSegments_wellformed (threshold : ℚ) (minSil pad : ℤ) (samples : List ℚ)
    (hpad : 0 ≤ pad) (hms : 2 * pad ≤ minSil + 1) :
    (∀ s ∈ keepSegments threshold minSil pad samples,
      0 ≤ s.start ∧ s.start < s.stop ∧ s.stop ≤ (samples.length : ℤ)) ∧
    (keepSegments threshold minSil pad samples).Chain' (fun a b => a.stop ≤ b.start) ∧
    ((keepSegments threshold minSil pad samples).map fun s => s.stop - s.start).sum
      ≤ (samples.length : ℤ) ∧
    (∀ pcm, trimSilence threshold minSil pad samples = .trimmed pcm →
      pcm.length ≤ samples.length) := by
  obtain ⟨hwf, hch⟩ := keepSegments_wf threshold minSil pad hpad hms samples
  have hsum := segs_sum_le (samples.length : ℤ) (by omega)
    (keepSegments threshold minSil pad samples) hwf hch
  refine ⟨hwf, hch, hsum, ?_⟩
  intro pcm hpcm
  simp only [trimSilence] at hpcm
  by_cases hempty : keepSegments threshold minSil pad samples = []
  · rw [if_pos hempty] at hpcm
    exact TrimResult.noConfusion hpcm
  · rw [if_neg hempty] at hpcm
    injection hpcm with h
    subst h
    rw [List.length_flatten, List.map_map]
    have hmap : ((keepSegments threshold minSil pad samples).map
          (List.length ∘ segOutput samples))
        = (keepSegments threshold minSil pad samples).map
            fun s => (s.stop - s.start).toNat := by
      apply List.map_congr_left
      intro s _
      exact segOutput_length samples s
    rw [hmap]
    have hz := segs_toNat_sum (keepSegments threshold minSil pad samples)
      (fun s hs => le_of_lt (hwf s hs).2.1)
    have hle : (((((keepSegments threshold minSil pad samples).map
          fun s => (s.stop - s.start).toNat).sum : ℕ) : ℤ) ≤ ((samples.length : ℕ) : ℤ)) := by
      rw [hz]
      exact hsum
    exact Nat.cast_le.mp hle

/-- Witness for `keepSegments_wellformed` at the in-app parameters on a
concrete waveform. -/
theorem keepSegments_wellformed_witness :
    ((keepSegments (3 / 200) 9600 2400 [1, 0]).map fun s => s.stop - s.start).sum
      ≤ (([1, 0] : List ℚ).length : ℤ) :=
  (keepSegments_wellformed (3 / 200) 9600 2400 [1, 0] (by norm_num) (by norm_num)).2.2.1

end NappingHistorian
